import Mathlib

/-!
Verification of the renderFS pre-render variable-presence validator.

This file shallowly embeds the validator found in `context_resolver.go` and
the template-scanning code of the same package (tokenizer, reference
extractor, block finder, `ensureVariablesPresent`).  Go strings are modelled
as `List Char` / `String` (all inputs of interest are ASCII, where Go's
byte-wise scanning and char-wise scanning coincide); Go's
`(value, bool)` returns become `Option`; the `([]pathSegment, error)` return
of `parsePath` becomes `Option (List pathSegment)` with `none` standing for
the `errInvalidPath` error.  Runtime context values (`pongo2.Context`,
`map[string]interface{}`, slices, strings, ints, nil) are modelled by the
inductive type `Value`; Go struct/method reflection lookups fall outside
this universe and are not exercised by any claim.

Go loops that do not recurse structurally are written with an explicit
fuel argument so that every definition reduces inside the kernel; each
wrapper passes `input length + 1` fuel, which is always sufficient
because every iteration of every such loop consumes at least one element
of its input (respectively strictly advances its index), so the
fuel-exhausted branches are unreachable and the functions compute
exactly what the Go loops compute.
-/

namespace RenderFS

/-- Whitespace as Go's `strings.TrimSpace` sees it (ASCII subset of
`unicode.IsSpace`): space, tab, newline, vertical tab, form feed,
carriage return. -/
def isGoSpace (c : Char) : Bool :=
  c = ' ' || c = '\t' || c = '\n' || c = Char.ofNat 11 || c = Char.ofNat 12 || c = '\r'

/-- `strings.TrimLeft(s, " ")`: drop leading plain spaces only. -/
def trimLeftSpaces (cs : List Char) : List Char :=
  cs.dropWhile (fun c => c = ' ')

/-- `strings.TrimSpace`: drop leading and trailing whitespace. -/
def trimSpaceChars (cs : List Char) : List Char :=
  ((cs.dropWhile isGoSpace).reverse.dropWhile isGoSpace).reverse

/-- Runtime context values: the shapes of data a caller can put in a
`pongo2.Context` that the claims exercise.  `vMap` models both
`pongo2.Context` and `map[string]interface{}` (string-keyed maps),
`vList` models slices/arrays, `vNull` models Go `nil`. -/
inductive Value where
  | vNull : Value
  | vInt (n : Int) : Value
  | vStr (s : String) : Value
  | vList (xs : List Value) : Value
  | vMap (entries : List (String × Value)) : Value

/-- Go map lookup `m[name]` on a string-keyed map (first matching key). -/
def lookupEntries : List (String × Value) → String → Option Value
  | [], _ => none
  | (k, v) :: rest, name => if k = name then some v else lookupEntries rest name

/-- Subscript classification, mirroring `indexKind` in `context_resolver.go`. -/
inductive indexKind where
  | unknown : indexKind
  | int : indexKind
  | string : indexKind
deriving DecidableEq, Repr

/-- Mirrors `pathIndex`: a tagged subscript.  Only the field named by the
kind is meaningful, the others keep their Go zero values. -/
structure pathIndex where
  kind : indexKind
  intValue : Int
  stringValue : String
deriving DecidableEq, Repr

/-- Mirrors `pathSegment`: a name plus its bracketed subscripts. -/
structure pathSegment where
  name : String
  subscripts : List pathIndex
deriving DecidableEq, Repr

/-- Fueled loop of `unescapeQuote`; consumes one or two characters per
step. -/
def unescapeQuoteF (q : Char) : Nat → List Char → List Char
  | 0, _ => []
  | _, [] => []
  | fuel + 1, '\\' :: c :: rest =>
    if c = q then q :: unescapeQuoteF q fuel rest
    else '\\' :: unescapeQuoteF q fuel (c :: rest)
  | fuel + 1, c :: rest => c :: unescapeQuoteF q fuel rest

/-- `strings.ReplaceAll(s, "\" ++ quote, quote)`: unescape the single
backslash-escaped quote character, scanning left to right. -/
def unescapeQuote (q : Char) (l : List Char) : List Char :=
  unescapeQuoteF q (l.length + 1) l

/-- Go `isDigit` (also the digit test used by `strconv.Atoi`'s model). -/
def isDigit (c : Char) : Bool := '0' ≤ c && c ≤ '9'

/-- Value of a nonempty all-digit run, `none` otherwise. -/
def digitsVal (l : List Char) : Option Nat :=
  if l = [] || !(l.all isDigit) then none
  else some (l.foldl (fun acc c => acc * 10 + (c.toNat - '0'.toNat)) 0)

/-- `strconv.Atoi`: optional sign, digits, 64-bit range check. -/
def atoi (s : List Char) : Option Int :=
  match s with
  | '+' :: rest =>
    (digitsVal rest).bind fun m =>
      if m ≤ 9223372036854775807 then some (m : Int) else none
  | '-' :: rest =>
    (digitsVal rest).bind fun m =>
      if m ≤ 9223372036854775808 then some (-(m : Int)) else none
  | _ =>
    (digitsVal s).bind fun m =>
      if m ≤ 9223372036854775807 then some (m : Int) else none

/-- Mirrors `parseIndex`: classify one bracket body (already trimmed). -/
def parseIndex (content : List Char) : pathIndex :=
  match content with
  | [] => ⟨indexKind.unknown, 0, ""⟩
  | c :: rest =>
    if c = '\'' || c = '"' then
      if rest = [] then ⟨indexKind.unknown, 0, ""⟩
      else if rest.getLastD c ≠ c then ⟨indexKind.unknown, 0, ""⟩
      else ⟨indexKind.string, 0, String.mk (unescapeQuote c rest.dropLast)⟩
    else
      match atoi content with
      | some n => ⟨indexKind.int, n, ""⟩
      | none => ⟨indexKind.unknown, 0, ""⟩

/-- Auxiliary for `findClosingBracketInString`: index (relative to the
current position) of the bracket that brings the depth back to zero. -/
def fcbChars : Int → List Char → Option Nat
  | _, [] => none
  | depth, c :: rest =>
    if c = '[' then (fcbChars (depth + 1) rest).map (· + 1)
    else if c = ']' then
      if depth - 1 = 0 then some 0 else (fcbChars (depth - 1) rest).map (· + 1)
    else (fcbChars depth rest).map (· + 1)

/-- Mirrors `findClosingBracketInString`: index of the `]` matching the
leading `[`, or `none` (Go's `-1`). -/
def findClosingBracketInString (expr : List Char) : Option Nat :=
  fcbChars 0 expr

/-- The name-consuming inner loop of `parsePath`: consume bytes up to the
next `.` (which is consumed, with following spaces trimmed) or `[`
(which is left in place); returns (name bytes, remaining input). -/
def scanName : List Char → List Char × List Char
  | [] => ([], [])
  | c :: rest =>
    if c = '.' then ([], trimLeftSpaces rest)
    else if c = '[' then ([], c :: rest)
    else
      let p := scanName rest
      (c :: p.1, p.2)

/-- Fueled subscript-consuming loop of `parsePath`: while the input starts
with `[`, find the matching `]` (error if absent), classify the trimmed
body, and continue after the bracket with surrounding space trimmed. -/
def scanSubscriptsF : Nat → List Char → Option (List pathIndex × List Char)
  | 0, _ => none
  | _, [] => some ([], [])
  | fuel + 1, c :: rest =>
    if c = '[' then
      match findClosingBracketInString (c :: rest) with
      | none => none
      | some endi =>
        match scanSubscriptsF fuel (trimSpaceChars ((c :: rest).drop (endi + 1))) with
        | none => none
        | some (subs, r) =>
          some (parseIndex (trimSpaceChars (((c :: rest).take endi).drop 1)) :: subs, r)
    else some ([], c :: rest)

/-- The subscript loop with its always-sufficient fuel (each iteration
consumes at least the opening bracket and its closing bracket). -/
def scanSubscripts (expr : List Char) : Option (List pathIndex × List Char) :=
  scanSubscriptsF (expr.length + 1) expr

/-- Fueled main loop of `parsePath`, after the initial trim.  One
iteration consumes a name (the `.` separator, if that is what ended the
name, is consumed by the name loop itself), then the subscripts; the
segment is appended; then the loop continues only if the remaining input
starts with a (second) `.`, otherwise any nonempty remainder stops
parsing and the segments collected so far are returned. -/
def parsePathLoopF : Nat → List Char → Option (List pathSegment)
  | 0, _ => none
  | _, [] => some []
  | fuel + 1, c :: rest =>
    match scanSubscripts (scanName (c :: rest)).2 with
    | none => none
    | some (subs, rest2) =>
      match rest2 with
      | [] => some [⟨String.mk (trimSpaceChars (scanName (c :: rest)).1), subs⟩]
      | '.' :: rest3 =>
        (parsePathLoopF fuel (trimLeftSpaces rest3)).map
          (⟨String.mk (trimSpaceChars (scanName (c :: rest)).1), subs⟩ :: ·)
      | _ :: _ => some [⟨String.mk (trimSpaceChars (scanName (c :: rest)).1), subs⟩]

/-- The segment loop with its always-sufficient fuel (each iteration
strictly shortens the remaining input). -/
def parsePathLoop (expr : List Char) : Option (List pathSegment) :=
  parsePathLoopF (expr.length + 1) expr

/-- Mirrors `parsePath`: trim the input, empty means no segments, else run
the segment loop.  `none` models the `errInvalidPath` error return. -/
def parsePath (path : String) : Option (List pathSegment) :=
  let expr := trimSpaceChars path.data
  if expr = [] then some []
  else parsePathLoop expr

/-- Mirrors `getAttribute` on the modelled `Value` universe: the empty
name returns the current value; string-keyed maps (`pongo2.Context` and
`map[string]interface{}` alike) look the key up; every other modelled
shape (nil, ints, strings, lists) has no attributes and fails.  Go's
struct-field / zero-argument-method reflection lookups concern values
outside this universe. -/
def getAttribute (current : Value) (name : String) : Option Value :=
  if name = "" then some current
  else
    match current with
    | .vMap entries => lookupEntries entries name
    | _ => none

/-- Mirrors `applySubscript`: an `unknown` subscript is assumed to resolve
and returns the value unchanged; otherwise nil fails (`toReflectValue`),
lists and strings take bounds-checked integer indices (strings by rune),
maps take string keys, and anything else fails. -/
def applySubscript (current : Value) (sub : pathIndex) : Option Value :=
  if sub.kind = indexKind.unknown then some current
  else
    match current with
    | .vNull => none
    | .vList xs =>
      if sub.kind = indexKind.int then
        if h : sub.intValue < 0 ∨ (xs.length : Int) ≤ sub.intValue then none
        else some (xs.get ⟨sub.intValue.toNat, by omega⟩)
      else none
    | .vStr s =>
      if sub.kind = indexKind.int then
        if h : sub.intValue < 0 ∨ (s.data.length : Int) ≤ sub.intValue then none
        else some (.vStr (String.mk [s.data.get ⟨sub.intValue.toNat, by omega⟩]))
      else none
    | .vMap entries =>
      if sub.kind = indexKind.string then lookupEntries entries sub.stringValue
      else none
    | .vInt _ => none

/-- Fold of `applySubscript` over a segment's subscripts (the loop inside
`lookupSegment`). -/
def applySubscripts (v : Value) : List pathIndex → Option Value
  | [] => some v
  | s :: rest =>
    match applySubscript v s with
    | none => none
    | some v2 => applySubscripts v2 rest

/-- Mirrors `lookupSegment`: name lookup, then each subscript in order. -/
def lookupSegment (current : Value) (seg : pathSegment) : Option Value :=
  match getAttribute current seg.name with
  | none => none
  | some v => applySubscripts v seg.subscripts

/-- The segment walk inside `resolvePath`. -/
def walkSegments (current : Value) : List pathSegment → Bool
  | [] => true
  | seg :: rest =>
    match lookupSegment current seg with
    | none => false
    | some nxt => walkSegments nxt rest

/-- Mirrors `resolvePath`: parse the path (a parse error counts as an
unresolved reference) and walk the segments starting at the context. -/
def resolvePath (ctx : List (String × Value)) (path : String) : Bool :=
  match parsePath path with
  | none => false
  | some segs => walkSegments (Value.vMap ctx) segs

/-- Token kinds of the expression tokenizer. -/
inductive tokenType where
  | identifier : tokenType
  | number : tokenType
  | string : tokenType
  | symbol : tokenType
deriving DecidableEq, Repr

/-- One token: kind and raw text. -/
structure token where
  typ : tokenType
  value : String
deriving DecidableEq, Repr

/-- Tokenizer whitespace (`isWhitespace` in the Go source: space, newline,
carriage return, tab — narrower than `strings.TrimSpace`). -/
def isTokWhitespace (c : Char) : Bool :=
  c = ' ' || c = '\n' || c = '\r' || c = '\t'

/-- Go `isIdentifierStart`: ASCII letter or underscore. -/
def isIdentifierStart (c : Char) : Bool :=
  ('a' ≤ c && c ≤ 'z') || ('A' ≤ c && c ≤ 'Z') || c = '_'

/-- Go `isIdentifierPart`: identifier start or digit. -/
def isIdentifierPart (c : Char) : Bool :=
  isIdentifierStart c || isDigit c

/-- Fueled quoted-string scan inside `tokenize`: consume up to and
including the closing quote, skipping over a backslash and the character
after it; a lone trailing backslash or a missing close quote consumes to
the end.  Returns (consumed body including any closing quote, rest). -/
def scanStringBodyF (q : Char) : Nat → List Char → List Char × List Char
  | 0, _ => ([], [])
  | _, [] => ([], [])
  | fuel + 1, c :: rest =>
    if c = '\\' then
      match rest with
      | [] => ([c], [])
      | c2 :: rest2 =>
        let p := scanStringBodyF q fuel rest2
        (c :: c2 :: p.1, p.2)
    else if c = q then ([c], rest)
    else
      let p := scanStringBodyF q fuel rest
      (c :: p.1, p.2)

/-- The string scan with its always-sufficient fuel. -/
def scanStringBody (q : Char) (l : List Char) : List Char × List Char :=
  scanStringBodyF q (l.length + 1) l

/-- Fueled loop of `tokenize`: scan left to right, dropping whitespace,
grouping identifier runs, number runs (digits and embedded dots), quoted
strings (with backslash skip-ahead), and single-character symbols. -/
def tokenizeF : Nat → List Char → List token
  | 0, _ => []
  | _, [] => []
  | fuel + 1, c :: rest =>
    if isTokWhitespace c then tokenizeF fuel rest
    else if isIdentifierStart c then
      ⟨tokenType.identifier, String.mk (c :: rest.takeWhile isIdentifierPart)⟩ ::
        tokenizeF fuel (rest.dropWhile isIdentifierPart)
    else if isDigit c then
      ⟨tokenType.number, String.mk (c :: rest.takeWhile (fun b => isDigit b || b = '.'))⟩ ::
        tokenizeF fuel (rest.dropWhile (fun b => isDigit b || b = '.'))
    else if c = '"' || c = '\'' then
      ⟨tokenType.string, String.mk (c :: (scanStringBody c rest).1)⟩ ::
        tokenizeF fuel (scanStringBody c rest).2
    else
      ⟨tokenType.symbol, String.mk [c]⟩ :: tokenizeF fuel rest

/-- Mirrors `tokenize` (fuel always sufficient: every iteration consumes
at least the current character). -/
def tokenize (l : List Char) : List token :=
  tokenizeF (l.length + 1) l

/-- The binding-introducing keywords checked against the previous
identifier token in `shouldSkipIdentifier`. -/
def bindingKeywords : List String := ["for", "set", "block", "macro", "call", "as"]

/-- `strings.HasPrefix(strings.ToLower(v), "end")` for the identifiers the
tokenizer can produce (ASCII letters, underscore, digits): the first
three characters are e, n, d in either case. -/
def lowerHasEndAtFront (cs : List Char) : Bool :=
  match cs with
  | c1 :: c2 :: c3 :: _ =>
    (c1 = 'e' || c1 = 'E') && (c2 = 'n' || c2 = 'N') && (c3 = 'd' || c3 = 'D')
  | _ => false

/-- Mirrors `shouldSkipIdentifier`: at index 0, skip identifiers whose
lowercase form starts with "end" (closing tags); otherwise skip when the
previous token is one of the symbols `.`, `|`, `:` or a
binding-introducing keyword identifier. -/
def shouldSkipIdentifier (ts : List token) (idx : Nat) : Bool :=
  match ts[idx]? with
  | none => false
  | some tok =>
    if idx = 0 then lowerHasEndAtFront tok.value.data
    else
      match ts[idx - 1]? with
      | none => false
      | some prev =>
        if prev.typ = tokenType.symbol then
          prev.value = "." || prev.value = "|" || prev.value = ":"
        else if prev.typ = tokenType.identifier then
          bindingKeywords.contains prev.value
        else false

/-- Auxiliary for `findClosingBracket` over tokens: offset (relative to
the current token) of the `]` symbol that brings the depth to zero. -/
def fcbTok : Int → List token → Option Nat
  | _, [] => none
  | depth, t :: rest =>
    if t.typ = tokenType.symbol && t.value = "[" then
      (fcbTok (depth + 1) rest).map (· + 1)
    else if t.typ = tokenType.symbol && t.value = "]" then
      if depth - 1 = 0 then some 0 else (fcbTok (depth - 1) rest).map (· + 1)
    else (fcbTok depth rest).map (· + 1)

/-- Mirrors `findClosingBracket`: absolute index of the matching `]`
starting the depth count at token `openIdx`. -/
def findClosingBracketAt (ts : List token) (openIdx : Nat) : Option Nat :=
  (fcbTok 0 (ts.drop openIdx)).map (· + openIdx)

/-- Mirrors `buildBracketNotation`: the literal text of the tokens from
`j` to `closing` inclusive, concatenated. -/
def bracketText (ts : List token) (j closing : Nat) : String :=
  String.join (((ts.drop j).take (closing + 1 - j)).map token.value)

/-- Fueled path-extension loop of `extractVariablesFromExpression`:
starting at token index `j` with accumulated path `acc`, greedily append
`. identifier` continuations and complete bracket groups; an unclosed
bracket jumps past the end of the tokens.  Returns the final path and
the index of the first unconsumed token. -/
def buildPathLoopF (ts : List token) : Nat → Nat → String → String × Nat
  | 0, j, acc => (acc, j)
  | fuel + 1, j, acc =>
    match ts[j]? with
    | none => (acc, j)
    | some t =>
      if t.typ = tokenType.symbol then
        if t.value = "." then
          match ts[j + 1]? with
          | some t2 =>
            if t2.typ = tokenType.identifier then
              buildPathLoopF ts fuel (j + 2) (acc ++ "." ++ t2.value)
            else (acc, j)
          | none => (acc, j)
        else if t.value = "[" then
          match findClosingBracketAt ts j with
          | none => (acc, ts.length)
          | some closing => buildPathLoopF ts fuel (closing + 1) (acc ++ bracketText ts j closing)
        else (acc, j)
      else (acc, j)

/-- The path-extension loop with its always-sufficient fuel (the index
strictly increases each iteration and the loop stops past the end). -/
def buildPathLoop (ts : List token) (j : Nat) (acc : String) : String × Nat :=
  buildPathLoopF ts (ts.length + 1) j acc

/-- A discovered reference: full path text and its base identifier. -/
structure variableCandidate where
  path : String
  base : String
deriving DecidableEq, Repr

/-- Fueled per-token loop of `extractVariablesFromExpression`: at each
identifier token not excluded by the skip rules, build the extended
path; discard it if the next token is `(` (a call target) or the path
is empty, else emit the candidate.  The outer index always advances by
one, exactly as the Go `for` loop does. -/
def extractLoopF (ts : List token) : Nat → Nat → List variableCandidate
  | 0, _ => []
  | fuel + 1, i =>
    match ts[i]? with
    | none => []
    | some tok =>
      let rest := extractLoopF ts fuel (i + 1)
      if tok.typ ≠ tokenType.identifier then rest
      else if shouldSkipIdentifier ts i then rest
      else
        let pj := buildPathLoop ts (i + 1) tok.value
        let isCall : Bool :=
          match ts[pj.2]? with
          | some t2 => t2.typ = tokenType.symbol && t2.value = "("
          | none => false
        if isCall then rest
        else if pj.1 = "" then rest
        else ⟨pj.1, tok.value⟩ :: rest

/-- The candidate loop with its always-sufficient fuel. -/
def extractLoop (ts : List token) (i : Nat) : List variableCandidate :=
  extractLoopF ts (ts.length + 1) i

/-- Mirrors `extractVariablesFromExpression`. -/
def extractVariablesFromExpression (expr : String) : List variableCandidate :=
  extractLoop (tokenize expr.data) 0

/-!
Block scanning.  The Go source finds expression blocks with the regular
expression pattern double-open-brace, optional dash, a lazy nonempty run
of non-brace characters (the captured group), optional dash,
double-close-brace; tag blocks use the same shape with a percent sign as
the second opening and first closing character.  The functions below
implement exactly the leftmost, first-preference (greedy optional dash,
lazy content) match semantics Go's regexp package applies, scanning
non-overlapping matches left to right.
-/

/-- A block-content character: anything except the two brace characters. -/
def isNonBrace (c : Char) : Bool := !(c = '{' || c = '}')

/-- Match the closing delimiter: an optional dash (preferred, as the
greedy optional dash tries the dash first) followed by the closing
character `k` and a closing brace.  Returns the rest on success. -/
def matchCloseDelim (k : Char) (cs : List Char) : Option (List Char) :=
  match cs with
  | '-' :: rest =>
    match rest with
    | c :: '}' :: r => if c = k then some r else none
    | _ => none
  | c :: '}' :: r => if c = k then some r else none
  | _ => none

/-- Match the lazy nonempty content run followed by the closing
delimiter: try the shortest content first, extending one non-brace
character at a time.  Returns (captured content, rest). -/
def matchContentLazy (k : Char) : List Char → Option (List Char × List Char)
  | [] => none
  | c :: rest =>
    if isNonBrace c then
      match matchCloseDelim k rest with
      | some r => some ([c], r)
      | none =>
        match matchContentLazy k rest with
        | some (cs2, r) => some (c :: cs2, r)
        | none => none
    else none

/-- Match what follows the two opening characters: a greedy optional dash
(tried first; on failure the dash is reconsidered as content), then the
lazy content and closing delimiter. -/
def matchAfterOpen (k : Char) (cs : List Char) : Option (List Char × List Char) :=
  match cs with
  | '-' :: rest =>
    match matchContentLazy k rest with
    | some x => some x
    | none => matchContentLazy k cs
  | _ => matchContentLazy k cs

/-- Fueled scan mirroring `regexp.FindAllStringSubmatch(tpl, -1)` for the
two block patterns: scan left to right; at each position where the two
opening characters (open brace, then `k2`) appear, attempt the match;.
on success record the captured group and continue after the match,
otherwise advance one character.  `k2` is the second opening character
and `k` the first closing character (both curly for expression blocks,
percent for tag blocks). -/
def findBlocksFromF (k2 k : Char) : Nat → List Char → List (List Char)
  | 0, _ => []
  | _, [] => []
  | _ + 1, [_] => []
  | fuel + 1, c :: c2 :: rest2 =>
    if c = '{' && c2 = k2 then
      match matchAfterOpen k rest2 with
      | some (content, r) => content :: findBlocksFromF k2 k fuel r
      | none => findBlocksFromF k2 k fuel (c2 :: rest2)
    else findBlocksFromF k2 k fuel (c2 :: rest2)

/-- The block scan with its always-sufficient fuel (every step consumes
at least one character: a successful match consumes its whole extent). -/
def findBlocksFrom (k2 k : Char) (l : List Char) : List (List Char) :=
  findBlocksFromF k2 k (l.length + 1) l

/-- The contents of all expression blocks of a template, in order. -/
def expressionBlockContents (tpl : String) : List (List Char) :=
  findBlocksFrom '{' '}' tpl.data

/-- The contents of all tag blocks of a template, in order. -/
def tagBlockContents (tpl : String) : List (List Char) :=
  findBlocksFrom '%' '%' tpl.data

/-- The fixed reserved-word set (`skipBaseIdentifiers` in the source):
candidate bases found in this set are never demanded from the context. -/
def skipBaseIdentifiers : List String :=
  ["true", "false", "none", "null", "not", "and", "or", "in", "as", "for",
   "end", "if", "elif", "else", "set", "block", "scoped", "with", "import",
   "from", "macro", "call", "loop", "forloop", "super", "self", "pongo2"]

/-- Deduplication by path keeping the first occurrence.  The Go code
stores candidates in a map keyed by path; the map CONTENT is exactly the
set of first occurrences (all candidates sharing a path are equal, since
the base is the leading identifier run of the path). -/
def dedupByPath : List variableCandidate → List String → List variableCandidate
  | [], _ => []
  | c :: rest, seen =>
    if seen.contains c.path then dedupByPath rest seen
    else c :: dedupByPath rest (c.path :: seen)

/-- Mirrors `collectVariableCandidates` up to enumeration order: extract
candidates from every expression block and then every tag block (each
block's inner text trimmed first), and deduplicate by path.  The list
returned here is in first-occurrence order; the Go function enumerates
the deduplication map in Go's unspecified (randomized) map range order,
so a real execution observes SOME permutation of this list — theorems
about the validator therefore quantify over permutations of it. -/
def collectVariableCandidates (tpl : String) : List variableCandidate :=
  let exprCands :=
    ((expressionBlockContents tpl).map
      (fun cs => extractVariablesFromExpression (String.mk (trimSpaceChars cs)))).flatten
  let tagCands :=
    ((tagBlockContents tpl).map
      (fun cs => extractVariablesFromExpression (String.mk (trimSpaceChars cs)))).flatten
  dedupByPath (exprCands ++ tagCands) []

/-- The candidate-checking loop of `ensureVariablesPresent`, parameterized
by the order in which the deduplicated candidates are enumerated:
skip reserved bases, resolve the rest, and report the first failing
path (`some path` models the `missing context value` error; `none`
models success). -/
def ensureVariablesPresentOrdered (ctx : List (String × Value)) :
    List variableCandidate → Option String
  | [] => none
  | c :: rest =>
    if skipBaseIdentifiers.contains c.base then ensureVariablesPresentOrdered ctx rest
    else if resolvePath ctx c.path then ensureVariablesPresentOrdered ctx rest
    else some c.path

/-- Mirrors `ensureVariablesPresent` with the canonical first-occurrence
enumeration order (one of the orders a real execution can observe). -/
def ensureVariablesPresent (tpl : String) (ctx : List (String × Value)) : Option String :=
  ensureVariablesPresentOrdered ctx (collectVariableCandidates tpl)

/-! Concrete templates and contexts taken from the claims. -/

/-- The template of claim C1 (braces written as hex escapes). -/
def tplC1 : String := "\x7b\x7b user.email \x7d\x7d"

/-- The context of claim C1: user maps to a mapping with only "name". -/
def ctxC1 : List (String × Value) := [("user", Value.vMap [("name", Value.vStr "Ann")])]

/-- The template of claim C3: a for loop whose body uses the bound name. -/
def tplC3 : String :=
  "\x7b% for item in items %\x7d\x7b\x7b item \x7d\x7d\x7b% endfor %\x7d"

/-- The context of claim C3: items is the list [1, 2, 3]. -/
def ctxC3 : List (String × Value) :=
  [("items", Value.vList [Value.vInt 1, Value.vInt 2, Value.vInt 3])]

/-- The template of claim C5: a dynamic subscript. -/
def tplC5 : String := "\x7b\x7b list[idx] \x7d\x7d"

/-- The context of claim C5: an empty list and idx = 5. -/
def ctxC5 : List (String × Value) := [("list", Value.vList []), ("idx", Value.vInt 5)]

/-- The template of claim C6: a static integer subscript. -/
def tplC6 : String := "\x7b\x7b list[0] \x7d\x7d"

/-- The context of claim C6: an empty list. -/
def ctxC6 : List (String × Value) := [("list", Value.vList [])]

/-- A template with two distinct unresolvable references, used to exhibit
the order dependence of the reported path (claim C9). -/
def tplC9 : String := "\x7b\x7b a \x7d\x7d\x7b\x7b b \x7d\x7d"

/-- Reserved-word identifiers that can appear alone in a block: the
skip-listed bases together with the common closing end-tags (claim C7). -/
def reservedAloneWords : List String :=
  skipBaseIdentifiers ++ ["endfor", "endif", "endblock", "endmacro", "endwith", "endfilter"]

/-- An expression block containing just the word `w`. -/
def exprBlockOf (w : String) : String := "\x7b\x7b " ++ w ++ " \x7d\x7d"

/-- A tag block containing just the word `w`. -/
def tagBlockOf (w : String) : String := "\x7b% " ++ w ++ " %\x7d"

/-! Helper lemmas locating the parser's one failure source: every error
return of `parsePath` originates at a subscript position whose opening
bracket has no matching close bracket in the remaining input. -/

theorem dropWhileLen_le (p : Char → Bool) : ∀ l : List Char, (l.dropWhile p).length ≤ l.length := by
  intro l
  induction l with
  | nil => simp [List.dropWhile]
  | cons a l ih =>
    simp only [List.dropWhile]
    split
    · exact Nat.le_trans ih (Nat.le_succ _)
    · exact Nat.le_refl _

theorem trimLeftSpacesLen_le (l : List Char) : (trimLeftSpaces l).length ≤ l.length :=
  dropWhileLen_le _ l

theorem trimSpaceCharsLen_le (l : List Char) : (trimSpaceChars l).length ≤ l.length := by
  unfold trimSpaceChars
  calc ((l.dropWhile isGoSpace).reverse.dropWhile isGoSpace).reverse.length
      = ((l.dropWhile isGoSpace).reverse.dropWhile isGoSpace).length := by
        exact List.length_reverse _
    _ ≤ (l.dropWhile isGoSpace).reverse.length := dropWhileLen_le _ _
    _ = (l.dropWhile isGoSpace).length := List.length_reverse _
    _ ≤ l.length := dropWhileLen_le _ _

theorem scanNameRest_le : ∀ l : List Char, (scanName l).2.length ≤ l.length := by
  intro l
  induction l with
  | nil => simp [scanName]
  | cons c rest ih =>
    simp only [scanName]
    split
    · exact Nat.le_trans (trimLeftSpacesLen_le rest) (Nat.le_succ _)
    · split
      · exact Nat.le_refl _
      · exact Nat.le_trans ih (Nat.le_succ _)

theorem scanSubscriptsRest_le :
    ∀ (fuel : Nat) (l : List Char) (subs : List pathIndex) (r : List Char),
    scanSubscriptsF fuel l = some (subs, r) → r.length ≤ l.length := by
  intro fuel
  induction fuel with
  | zero => intro l subs r h; exact absurd h (by simp [scanSubscriptsF])
  | succ f ih =>
    intro l subs r h
    cases l with
    | nil =>
      simp only [scanSubscriptsF, Option.some.injEq, Prod.mk.injEq] at h
      obtain ⟨h1, h2⟩ := h
      subst h2
      simp
    | cons c rest =>
      simp only [scanSubscriptsF] at h
      split at h
      · split at h
        · exact absurd h (by simp)
        · rename_i endi hfcb
          split at h
          · exact absurd h (by simp)
          · rename_i subs2 r2 hrec
            simp only [Option.some.injEq, Prod.mk.injEq] at h
            obtain ⟨h1, h2⟩ := h
            subst h2
            have hr := ih _ _ _ hrec
            have h3 := trimSpaceCharsLen_le ((c :: rest).drop (endi + 1))
            have h4 : ((c :: rest).drop (endi + 1)).length = (c :: rest).length - (endi + 1) :=
              List.length_drop _ _
            simp only [List.length_cons] at h4 ⊢
            omega
      · simp only [Option.some.injEq, Prod.mk.injEq] at h
        obtain ⟨h1, h2⟩ := h
        subst h2
        simp

theorem dropWhileInfixOf (p : Char → Bool) (l : List Char) : l.dropWhile p <:+: l :=
  ⟨l.takeWhile p, [], by rw [List.append_nil, List.takeWhile_append_dropWhile]⟩

theorem dropInfixOf (n : Nat) (l : List Char) : l.drop n <:+: l :=
  ⟨l.take n, [], by rw [List.append_nil, List.take_append_drop]⟩

theorem tailInfixOf (c : Char) (l : List Char) : l <:+: c :: l :=
  ⟨[c], [], by simp⟩

theorem trimSpaceCharsInfixOf (l : List Char) : trimSpaceChars l <:+: l := by
  unfold trimSpaceChars
  refine List.IsInfix.trans ?_ (dropWhileInfixOf isGoSpace l)
  refine ⟨[], ((l.dropWhile isGoSpace).reverse.takeWhile isGoSpace).reverse, ?_⟩
  rw [List.nil_append]
  have h3 := congrArg List.reverse
    (List.takeWhile_append_dropWhile (p := isGoSpace) (l := (l.dropWhile isGoSpace).reverse))
  rw [List.reverse_append, List.reverse_reverse] at h3
  exact h3

theorem scanNameRestInfixOf : ∀ l : List Char, (scanName l).2 <:+: l := by
  intro l
  induction l with
  | nil => exact ⟨[], [], by simp [scanName]⟩
  | cons c rest ih =>
    simp only [scanName]
    split
    · exact List.IsInfix.trans (dropWhileInfixOf _ rest) (tailInfixOf c rest)
    · split
      · exact ⟨[], [], by simp⟩
      · exact List.IsInfix.trans ih (tailInfixOf c rest)

theorem scanSubscriptsRestInfixOf :
    ∀ (fuel : Nat) (l : List Char) (subs : List pathIndex) (r : List Char),
    scanSubscriptsF fuel l = some (subs, r) → r <:+: l := by
  intro fuel
  induction fuel with
  | zero => intro l subs r h; exact absurd h (by simp [scanSubscriptsF])
  | succ f ih =>
    intro l subs r h
    cases l with
    | nil =>
      simp only [scanSubscriptsF, Option.some.injEq, Prod.mk.injEq] at h
      obtain ⟨h1, h2⟩ := h
      subst h2
      exact ⟨[], [], by simp⟩
    | cons c rest =>
      simp only [scanSubscriptsF] at h
      split at h
      · split at h
        · exact absurd h (by simp)
        · rename_i endi hfcb
          split at h
          · exact absurd h (by simp)
          · rename_i subs2 r2 hrec
            simp only [Option.some.injEq, Prod.mk.injEq] at h
            obtain ⟨h1, h2⟩ := h
            subst h2
            exact List.IsInfix.trans (ih _ _ _ hrec)
              (List.IsInfix.trans (trimSpaceCharsInfixOf _) (dropInfixOf _ _))
      · simp only [Option.some.injEq, Prod.mk.injEq] at h
        obtain ⟨h1, h2⟩ := h
        subst h2
        exact ⟨[], [], by simp⟩

theorem scanSubscriptsErrBracket :
    ∀ (fuel : Nat) (l : List Char), l.length < fuel →
    scanSubscriptsF fuel l = none →
    ∃ cs, cs.head? = some '[' ∧ findClosingBracketInString cs = none ∧ cs <:+: l := by
  intro fuel
  induction fuel with
  | zero => intro l hl h; exact absurd hl (Nat.not_lt_zero _)
  | succ f ih =>
    intro l hl h
    cases l with
    | nil => exact absurd h (by simp [scanSubscriptsF])
    | cons c rest =>
      simp only [scanSubscriptsF] at h
      split at h
      · rename_i hc
        split at h
        · rename_i hfcb
          exact ⟨c :: rest, by simp [hc], hfcb, ⟨[], [], by simp⟩⟩
        · rename_i endi hfcb
          split at h
          · rename_i hrec
            have hlen : (trimSpaceChars ((c :: rest).drop (endi + 1))).length < f := by
              have h3 := trimSpaceCharsLen_le ((c :: rest).drop (endi + 1))
              have h4 : ((c :: rest).drop (endi + 1)).length = (c :: rest).length - (endi + 1) :=
                List.length_drop _ _
              simp only [List.length_cons] at h4 hl
              omega
            obtain ⟨cs, h1, h2, h3⟩ := ih _ hlen hrec
            exact ⟨cs, h1, h2, List.IsInfix.trans h3
              (List.IsInfix.trans (trimSpaceCharsInfixOf _) (dropInfixOf _ _))⟩
          · exact absurd h (by simp)
      · exact absurd h (by simp)

theorem parsePathLoopErrBracket :
    ∀ (fuel : Nat) (expr : List Char), expr.length < fuel →
    parsePathLoopF fuel expr = none →
    ∃ cs, cs.head? = some '[' ∧ findClosingBracketInString cs = none ∧ cs <:+: expr := by
  intro fuel
  induction fuel with
  | zero => intro e he h; exact absurd he (Nat.not_lt_zero _)
  | succ f ih =>
    intro e he h
    cases e with
    | nil => exact absurd h (by simp [parsePathLoopF])
    | cons c rest =>
      simp only [parsePathLoopF] at h
      split at h
      · rename_i hscan
        unfold scanSubscripts at hscan
        obtain ⟨cs, h1, h2, h3⟩ :=
          scanSubscriptsErrBracket _ _ (Nat.lt_succ_self _) hscan
        exact ⟨cs, h1, h2, List.IsInfix.trans h3 (scanNameRestInfixOf _)⟩
      · rename_i subs rest2 hscan
        split at h
        · exact absurd h (by simp)
        · rename_i rest3
          rw [Option.map_eq_none'] at h
          unfold scanSubscripts at hscan
          have hr2le : ('.' :: rest3).length ≤ (scanName (c :: rest)).2.length :=
            scanSubscriptsRest_le _ _ _ _ hscan
          have hr2inf : ('.' :: rest3) <:+: (scanName (c :: rest)).2 :=
            scanSubscriptsRestInfixOf _ _ _ _ hscan
          have hlen : (trimLeftSpaces rest3).length < f := by
            have h1 := trimLeftSpacesLen_le rest3
            have h2 := scanNameRest_le (c :: rest)
            simp only [List.length_cons] at hr2le he h2
            omega
          obtain ⟨cs, h1, h2, h3⟩ := ih _ hlen h
          refine ⟨cs, h1, h2, List.IsInfix.trans h3 ?_⟩
          exact List.IsInfix.trans (dropWhileInfixOf _ rest3)
            (List.IsInfix.trans (tailInfixOf '.' rest3)
              (List.IsInfix.trans hr2inf (scanNameRestInfixOf _)))
        · exact absurd h (by simp)

/-- Every error return of `parsePath` exhibits an unterminated bracket:
a contiguous substring of the input that starts with `[` and whose
matching close bracket is missing. -/
theorem parsePathErrBracket (path : String) (h : parsePath path = none) :
    ∃ cs, cs.head? = some '[' ∧ findClosingBracketInString cs = none ∧
      cs <:+: path.data := by
  simp only [parsePath] at h
  split at h
  · exact absurd h (by simp)
  · unfold parsePathLoop at h
    obtain ⟨cs, h1, h2, h3⟩ :=
      parsePathLoopErrBracket _ _ (Nat.lt_succ_self _) h
    exact ⟨cs, h1, h2, List.IsInfix.trans h3 (trimSpaceCharsInfixOf _)⟩

/-! Helper lemmas about the candidate-checking loop. -/

theorem ensureOrdered_eq_none_iff (ctx : List (String × Value)) :
    ∀ l : List variableCandidate,
    (ensureVariablesPresentOrdered ctx l = none ↔
      ∀ c ∈ l, skipBaseIdentifiers.contains c.base = true ∨ resolvePath ctx c.path = true) := by
  intro l
  induction l with
  | nil => simp [ensureVariablesPresentOrdered]
  | cons c rest ih =>
    simp only [ensureVariablesPresentOrdered]
    split
    · rename_i hskip
      rw [ih]
      constructor
      · intro h d hd
        rcases List.mem_cons.mp hd with h1 | h1
        · subst h1; exact Or.inl hskip
        · exact h d h1
      · intro h d hd
        exact h d (List.mem_cons_of_mem _ hd)
    · rename_i hskip
      split
      · rename_i hres
        rw [ih]
        constructor
        · intro h d hd
          rcases List.mem_cons.mp hd with h1 | h1
          · subst h1; exact Or.inr hres
          · exact h d h1
        · intro h d hd
          exact h d (List.mem_cons_of_mem _ hd)
      · rename_i hres
        constructor
        · intro h
          exact absurd h (by simp)
        · intro h
          rcases h c (List.mem_cons_self c rest) with h1 | h1
          · exact absurd h1 hskip
          · exact absurd h1 hres

theorem ensureOrdered_some_mem (ctx : List (String × Value)) :
    ∀ (l : List variableCandidate) (p : String),
    ensureVariablesPresentOrdered ctx l = some p →
    ∃ c, c ∈ l ∧ c.path = p ∧ skipBaseIdentifiers.contains c.base = false ∧
      resolvePath ctx c.path = false := by
  intro l
  induction l with
  | nil => intro p h; exact absurd h (by simp [ensureVariablesPresentOrdered])
  | cons c rest ih =>
    intro p h
    simp only [ensureVariablesPresentOrdered] at h
    split at h
    · obtain ⟨d, hd, hrest⟩ := ih p h
      exact ⟨d, List.mem_cons_of_mem _ hd, hrest⟩
    · split at h
      · obtain ⟨d, hd, hrest⟩ := ih p h
        exact ⟨d, List.mem_cons_of_mem _ hd, hrest⟩
      · rename_i hskip hres
        simp only [Option.some.injEq] at h
        refine ⟨c, List.mem_cons_self c rest, h, ?_, ?_⟩
        · revert hskip
          cases skipBaseIdentifiers.contains c.base <;> simp
        · revert hres
          cases resolvePath ctx c.path <;> simp

/-! The claims. -/

/-- Claim C1 (code bug): the claim says that for the template
`{{ user.email }}` with context user -> {name: "Ann"}, validation fails
reporting "user.email".  The code disagrees: `parsePath` consumes the
dot inside its name loop and then expects ANOTHER dot after the
segment's subscripts to continue, so "user.email" parses as the single
segment "user"; only "user" is resolved (successfully), and validation
succeeds.  This theorem evaluates the code at the claim's input. -/
theorem claimC1_code_eval :
    parsePath "user.email" = some [⟨"user", []⟩] ∧
    collectVariableCandidates tplC1 = [⟨"user.email", "user"⟩] ∧
    ensureVariablesPresent tplC1 ctxC1 = none :=
  ⟨by decide, by decide, by decide⟩

/-- Claim C2 (code bug): the claim says parsing `a.b[0]["x"]` yields the
two segments a and b[0]["x"].  The code yields only the segment "a" with
no subscripts, because the name loop consumes the separating dot and the
continuation check after the (empty) subscript list then sees "b" where
it insists on a dot, stopping the parse.  This theorem evaluates the
parser at the claim's input. -/
theorem claimC2_code_eval :
    parsePath "a.b[0][\"x\"]" = some [⟨"a", []⟩] ∧
    parsePath "a.b[0][\"x\"]" ≠
      some [⟨"a", []⟩,
            ⟨"b", [⟨indexKind.int, 0, ""⟩, ⟨indexKind.string, 0, "x"⟩]⟩] :=
  ⟨by decide, by decide⟩

/-- Claim C3, counterexample: for the loop template with items present,
validation FAILS demanding "item" (the canonical enumeration order; the
amended theorem shows every order gives the same report), contradicting
the claim that it succeeds. -/
theorem claimC3_counterexample :
    ensureVariablesPresent tplC3 ctxC3 = some "item" := by decide

/-- Claim C3, amended: the loop-bound name is skipped only where it
directly follows the binding keyword inside the same block; its
occurrence alone in the separate expression block `{{ item }}` produces
the candidate "item", which is demanded from the context and missing, so
validation fails reporting "item" under every enumeration order of the
deduplicated candidates. -/
theorem claimC3_amended :
    ∀ p : List variableCandidate, List.Perm p (collectVariableCandidates tplC3) →
    ensureVariablesPresentOrdered ctxC3 p = some "item" := by
  intro p hp
  have hcanon : collectVariableCandidates tplC3 =
      [⟨"item", "item"⟩, ⟨"for", "for"⟩, ⟨"in", "in"⟩, ⟨"items", "items"⟩] := by decide
  cases hres : ensureVariablesPresentOrdered ctxC3 p with
  | none =>
    exfalso
    have hall := (ensureOrdered_eq_none_iff ctxC3 p).mp hres
    have hmem : (⟨"item", "item"⟩ : variableCandidate) ∈ p := by
      rw [List.Perm.mem_iff hp, hcanon]
      exact List.mem_cons_self _ _
    rcases hall _ hmem with h1 | h1
    · exact absurd h1 (by decide)
    · exact absurd h1 (by decide)
  | some q =>
    obtain ⟨c, hcm, hcp, hskip, hresolve⟩ := ensureOrdered_some_mem ctxC3 p q hres
    have hmem2 : c ∈ collectVariableCandidates tplC3 := (List.Perm.mem_iff hp).mp hcm
    rw [hcanon] at hmem2
    simp only [List.mem_cons, List.not_mem_nil, or_false] at hmem2
    rcases hmem2 with h | h | h | h <;> subst h
    · subst hcp; rfl
    · exact absurd hskip (by decide)
    · exact absurd hskip (by decide)
    · exact absurd hresolve (by decide)

/-- Witness for claim C3's amended theorem at the canonical order. -/
theorem claimC3_witness :
    ensureVariablesPresentOrdered ctxC3 (collectVariableCandidates tplC3) = some "item" :=
  claimC3_amended _ (List.Perm.refl _)

/-- Claim C4, counterexample: the path parser is NOT total — on an
unterminated bracket subscript it returns the `errInvalidPath` error
(modelled as `none`). -/
theorem claimC4_counterexample : parsePath "a[" = none := by decide

/-- Claim C4, amended: `parsePath` can fail, and its only failure source
is an unterminated `[` subscript: every failing input contains a
contiguous substring that starts with `[` and has no matching close
bracket (consequently every bracket-free input parses); a parse failure
is never surfaced to the caller as an error distinct from ordinary
resolution — `resolvePath` reports the reference unresolved; and
unparseable content after a segment's subscripts is dropped, keeping
the segments parsed so far (the "a[0]x" conjunct). -/
theorem claimC4_amended :
    (∀ (ctx : List (String × Value)) (path : String),
      parsePath path = none → resolvePath ctx path = false) ∧
    (∀ path : String, parsePath path = none →
      ∃ cs, cs.head? = some '[' ∧ findClosingBracketInString cs = none ∧
        cs <:+: path.data) ∧
    (∀ path : String, '[' ∉ path.data → parsePath path ≠ none) ∧
    parsePath "a[" = none ∧
    parsePath "a[0]x" = some [⟨"a", [⟨indexKind.int, 0, ""⟩]⟩] := by
  refine ⟨?_, ?_, ?_, by decide, by decide⟩
  · intro ctx path h
    unfold resolvePath
    rw [h]
  · intro path h
    exact parsePathErrBracket path h
  · intro path hmem h
    obtain ⟨cs, h1, h2, h3⟩ := parsePathErrBracket path h
    cases cs with
    | nil => exact absurd h1 (by simp)
    | cons c t =>
      simp only [List.head?_cons, Option.some.injEq] at h1
      subst h1
      exact hmem (List.IsInfix.subset h3 (List.mem_cons_self _ _))

/-- Witness for claim C4's amended theorem: the error-containment part at
the failing input "a[", the unterminated-bracket characterization at
"a[", and bracket-free totality at "hello". -/
theorem claimC4_witness :
    resolvePath [] "a[" = false ∧
    (∃ cs, cs.head? = some '[' ∧ findClosingBracketInString cs = none ∧
      cs <:+: ("a[".data)) ∧
    parsePath "hello" ≠ none :=
  ⟨claimC4_amended.1 [] "a[" (by decide),
   claimC4_amended.2.1 "a[" (by decide),
   claimC4_amended.2.2.1 "hello" (by decide)⟩

/-- Claim C5: an "unknown" subscript resolves against ANY current value
(returning it unchanged); for `{{ list[idx] }}` with list = [] and
idx = 5, the bracketed identifier idx is extracted as its own candidate,
and validation succeeds under every enumeration order. -/
theorem claimC5 :
    (∀ (v : Value) (iv : Int) (sv : String),
      applySubscript v ⟨indexKind.unknown, iv, sv⟩ = some v) ∧
    collectVariableCandidates tplC5 = [⟨"list[idx]", "list"⟩, ⟨"idx", "idx"⟩] ∧
    (∀ p, List.Perm p (collectVariableCandidates tplC5) →
      ensureVariablesPresentOrdered ctxC5 p = none) := by
  refine ⟨?_, by decide, ?_⟩
  · intro v iv sv
    simp [applySubscript]
  · intro p hp
    apply (ensureOrdered_eq_none_iff ctxC5 p).mpr
    intro c hc
    have hcanon : collectVariableCandidates tplC5 =
        [⟨"list[idx]", "list"⟩, ⟨"idx", "idx"⟩] := by decide
    have hmem : c ∈ collectVariableCandidates tplC5 := (List.Perm.mem_iff hp).mp hc
    rw [hcanon] at hmem
    simp only [List.mem_cons, List.not_mem_nil, or_false] at hmem
    rcases hmem with h | h <;> subst h
    · exact Or.inr (by decide)
    · exact Or.inr (by decide)

/-- Witness for claim C5 at the canonical order. -/
theorem claimC5_witness :
    ensureVariablesPresentOrdered ctxC5 (collectVariableCandidates tplC5) = none :=
  claimC5.2.2 _ (List.Perm.refl _)

/-- Claim C6: an integer subscript on an ordered sequence is
bounds-checked — it resolves exactly when 0 ≤ index < length — and for
`{{ list[0] }}` with list = [] validation fails (reporting "list[0]")
under every enumeration order. -/
theorem claimC6 :
    (∀ (xs : List Value) (i : Int),
      (applySubscript (Value.vList xs) ⟨indexKind.int, i, ""⟩).isSome ↔
        0 ≤ i ∧ i < (xs.length : Int)) ∧
    (∀ p, List.Perm p (collectVariableCandidates tplC6) →
      ensureVariablesPresentOrdered ctxC6 p = some "list[0]") := by
  constructor
  · intro xs i
    simp only [applySubscript]
    split
    · rename_i h
      exact absurd h (by decide)
    · split
      · split
        · rename_i h
          simp only [Option.isSome_none, Bool.false_eq_true, false_iff]
          omega
        · rename_i h
          simp only [Option.isSome_some, true_iff]
          omega
      · rename_i h
        exact absurd trivial h
  · intro p hp
    have hcanon : collectVariableCandidates tplC6 = [⟨"list[0]", "list"⟩] := by decide
    rw [hcanon] at hp
    rw [List.perm_singleton.mp hp]
    decide

/-- Witness for claim C6 at the canonical order. -/
theorem claimC6_witness :
    ensureVariablesPresentOrdered ctxC6 (collectVariableCandidates tplC6) = some "list[0]" :=
  claimC6.2 _ (List.Perm.refl _)

/-- Claim C7, counterexample: the extractor DOES produce a Reference
Candidate for the reserved word "true" alone in a block (it is filtered
only later, by the skip list inside `ensureVariablesPresent`). -/
theorem claimC7_counterexample :
    extractVariablesFromExpression "true" = [⟨"true", "true"⟩] ∧
    collectVariableCandidates (exprBlockOf "true") = [⟨"true", "true"⟩] :=
  ⟨by decide, by decide⟩

/-- Claim C7, amended: for every reserved-word identifier alone in an
expression or tag block, validation never demands the identifier from
the context: end-prefixed closing tags produce no candidate at all,
and each other reserved word produces a candidate whose base is in
the skip list, so every enumeration order validates successfully
against every context. -/
theorem claimC7_amended :
    ∀ w ∈ reservedAloneWords, ∀ (ctx : List (String × Value)) (p q : List variableCandidate),
    List.Perm p (collectVariableCandidates (exprBlockOf w)) →
    List.Perm q (collectVariableCandidates (tagBlockOf w)) →
    ensureVariablesPresentOrdered ctx p = none ∧ ensureVariablesPresentOrdered ctx q = none := by
  have hall : reservedAloneWords.all (fun w =>
      ((collectVariableCandidates (exprBlockOf w)).all
        (fun c => skipBaseIdentifiers.contains c.base)) &&
      ((collectVariableCandidates (tagBlockOf w)).all
        (fun c => skipBaseIdentifiers.contains c.base))) = true := by decide
  rw [List.all_eq_true] at hall
  intro w hw ctx p q hp hq
  have h2 := hall w hw
  rw [Bool.and_eq_true, List.all_eq_true, List.all_eq_true] at h2
  obtain ⟨he, ht⟩ := h2
  constructor
  · exact (ensureOrdered_eq_none_iff ctx p).mpr
      (fun c hc => Or.inl (he c ((List.Perm.mem_iff hp).mp hc)))
  · exact (ensureOrdered_eq_none_iff ctx q).mpr
      (fun c hc => Or.inl (ht c ((List.Perm.mem_iff hq).mp hc)))

/-- Witness for claim C7's amended theorem at w = "true". -/
theorem claimC7_witness :
    ensureVariablesPresentOrdered [] (collectVariableCandidates (exprBlockOf "true")) = none ∧
    ensureVariablesPresentOrdered [] (collectVariableCandidates (tagBlockOf "true")) = none :=
  claimC7_amended "true" (by decide) [] _ _ (List.Perm.refl _) (List.Perm.refl _)

/-- Claim C8: a template with no expression blocks and no tag blocks
yields no candidates, so validation succeeds for every context under
every enumeration order. -/
theorem claimC8 :
    ∀ (tpl : String) (ctx : List (String × Value)),
    expressionBlockContents tpl = [] → tagBlockContents tpl = [] →
    ∀ p, List.Perm p (collectVariableCandidates tpl) →
    ensureVariablesPresentOrdered ctx p = none := by
  intro tpl ctx he ht p hp
  have hcoll : collectVariableCandidates tpl = [] := by
    unfold collectVariableCandidates
    rw [he, ht]
    simp [dedupByPath]
  rw [hcoll] at hp
  rw [List.perm_nil.mp hp]
  rfl

/-- Witness for claim C8 on a block-free template. -/
theorem claimC8_witness :
    ensureVariablesPresentOrdered [] (collectVariableCandidates "hello") = none :=
  claimC8 "hello" [] (by decide) (by decide) _ (List.Perm.refl _)

/-- Claim C9, counterexample: validation is NOT deterministic in its
reported path.  The deduplicated candidates of `{{ a }}{{ b }}` are
{a, b}; Go enumerates them in randomized map order, and the two
enumeration orders — both permutations of the collected set — report
different unresolved paths against the empty context. -/
theorem claimC9_counterexample :
    collectVariableCandidates tplC9 = [⟨"a", "a"⟩, ⟨"b", "b"⟩] ∧
    List.Perm [(⟨"b", "b"⟩ : variableCandidate), ⟨"a", "a"⟩] (collectVariableCandidates tplC9) ∧
    ensureVariablesPresentOrdered [] [⟨"a", "a"⟩, ⟨"b", "b"⟩] = some "a" ∧
    ensureVariablesPresentOrdered [] [⟨"b", "b"⟩, ⟨"a", "a"⟩] = some "b" :=
  ⟨by decide, by decide, by decide, by decide⟩

/-- Claim C9, amended: the pass/fail VERDICT of validation is
deterministic — it does not depend on the enumeration order of the
deduplicated candidates — though the reported path may differ between
orders when several candidates are unresolved. -/
theorem claimC9_amended :
    ∀ (tpl : String) (ctx : List (String × Value)) (p q : List variableCandidate),
    List.Perm p (collectVariableCandidates tpl) →
    List.Perm q (collectVariableCandidates tpl) →
    (ensureVariablesPresentOrdered ctx p = none ↔
      ensureVariablesPresentOrdered ctx q = none) := by
  intro tpl ctx p q hp hq
  rw [ensureOrdered_eq_none_iff, ensureOrdered_eq_none_iff]
  constructor
  · intro h c hc
    exact h c ((List.Perm.mem_iff hp).mpr ((List.Perm.mem_iff hq).mp hc))
  · intro h c hc
    exact h c ((List.Perm.mem_iff hq).mpr ((List.Perm.mem_iff hp).mp hc))

/-- Witness for claim C9's amended theorem on the two orders of the
candidates of `tplC9`. -/
theorem claimC9_witness :
    (ensureVariablesPresentOrdered [] [(⟨"a", "a"⟩ : variableCandidate), ⟨"b", "b"⟩] = none ↔
      ensureVariablesPresentOrdered [] [(⟨"b", "b"⟩ : variableCandidate), ⟨"a", "a"⟩] = none) :=
  claimC9_amended tplC9 [] _ _ (by decide) (by decide)

/-- Claim C10: an integer subscript on a text value indexes by Unicode
code points (the model of Go's rune slice): it yields the one-rune
substring at the index when 0 ≤ index < rune count and fails otherwise;
the concrete conjunct indexes past a two-byte character. -/
theorem claimC10 :
    (∀ (s : String) (i : Int),
      applySubscript (Value.vStr s) ⟨indexKind.int, i, ""⟩ =
        if 0 ≤ i then (s.data[i.toNat]?).map (fun c => Value.vStr (String.mk [c]))
        else none) ∧
    applySubscript (Value.vStr "héllo") ⟨indexKind.int, 1, ""⟩ = some (Value.vStr "é") := by
  constructor
  · intro s i
    simp only [applySubscript]
    split
    · rename_i h
      exact absurd h (by decide)
    · split
      · split
        · rename_i h
          by_cases h0 : 0 ≤ i
          · rw [if_pos h0]
            have hlen : s.data.length ≤ i.toNat := by omega
            rw [List.getElem?_eq_none hlen]
            rfl
          · rw [if_neg h0]
        · rename_i h
          rw [if_pos (by omega)]
          have hlt : i.toNat < s.data.length := by omega
          rw [List.getElem?_eq_getElem hlt]
          simp [List.get_eq_getElem]
      · rename_i h
        exact absurd trivial h
  · rfl

end RenderFS
